import Mathlib

/-!
Verification of the `wamp` dict utilities (`dict.go`): normalization of
loosely-typed nested dictionaries, child/path resolution, typed option
accessors and the single-key mutator.

The Go value universe `interface{}` (as far as these functions inspect it)
is embedded as the inductive type `Value`.  A Go `map[string]interface{}`
is embedded as the association list `Entries` (Go map iteration order is
unspecified but the resulting map contents are order-independent; the list
order is a faithful determinization).  A possibly-nil map is `GoMap`
(`Option Entries`, `none` = nil map).  Foreign map-shaped values
(`map[K]V` for other `K`, `V`) are `MEntries`, whose keys record the
reflect kind structure that `NormalizeDict` inspects: a key is either a
string-kind key, or interface-boxed (one `Elem()` unwrap), or of some
other kind.  Machine-integer values carry their mathematical value; the
conversions done by `OptionInt64` are embedded with explicit wrapping
where Go's conversion wraps.  Go floats are embedded as rationals
(every finite float is rational); Go's float-to-int64 conversion
truncates toward zero, embedded with truncating integer division.
-/

namespace Wamp

/-- Reflect-kind structure of a key of a foreign (non-canonical) Go map:
either a string-kind key or a key of any other kind. -/
inductive RawKey where
  | str (s : String)
  | other
  deriving DecidableEq

/-- A key of a foreign map as `NormalizeDict` sees it: either a plain key
or an interface-boxed key that `reflect.Value.Elem()` unwraps once. -/
inductive MKey where
  | plain (k : RawKey)
  | boxed (k : RawKey)
  deriving DecidableEq

mutual
/-- Embedding of the Go `interface{}` values these functions inspect:
nil, scalars of every conventional width, strings, canonical dicts
(`map[string]interface{}`), foreign map-shaped values, and opaque rest. -/
inductive Value where
  | vnil
  | vbool (b : Bool)
  | vint (i : Int)
  | vint8 (i : Int)
  | vint16 (i : Int)
  | vint32 (i : Int)
  | vint64 (i : Int)
  | vuint (n : Nat)
  | vuint8 (n : Nat)
  | vuint16 (n : Nat)
  | vuint32 (n : Nat)
  | vuint64 (n : Nat)
  | vfloat32 (q : Rat)
  | vfloat64 (q : Rat)
  | vstring (s : String)
  | vdict (es : Entries)
  | vmap (ms : MEntries)
  | vother

/-- A canonical Go `map[string]interface{}` as an association list. -/
inductive Entries where
  | enil
  | econs (k : String) (v : Value) (rest : Entries)

/-- A foreign map-shaped Go value as an association list over `MKey`. -/
inductive MEntries where
  | mnil
  | mcons (k : MKey) (v : Value) (rest : MEntries)
end

/-- A Go `map[string]interface{}` variable, which may be nil. -/
abbrev GoMap := Option Entries

/-- Go map read `es[k]`: first entry with key `k`. -/
def elookup : Entries → String → Option Value
  | Entries.enil, _ => none
  | Entries.econs k v rest, key => if k = key then some v else elookup rest key

/-- Go map read on a possibly-nil map (reading a nil map finds nothing). -/
def dlookup : GoMap → String → Option Value
  | none, _ => none
  | some es, key => elookup es key

/-- Go map assignment `es[k] = v`: replace the first entry with key `k`,
or append a new entry at the end. -/
def dset : Entries → String → Value → Entries
  | Entries.enil, k, v => Entries.econs k v Entries.enil
  | Entries.econs k' v' rest, k, v =>
      if k' = k then Entries.econs k v rest
      else Entries.econs k' v' (dset rest k v)

/-- Key membership in an association list. -/
def keyMem (s : String) : Entries → Bool
  | Entries.enil => false
  | Entries.econs k _ rest => if k = s then true else keyMem s rest

/-- Appending association lists (used only to state reconstruction lemmas). -/
def eappend : Entries → Entries → Entries
  | Entries.enil, b => b
  | Entries.econs k v rest, b => Entries.econs k v (eappend rest b)

/-- The key filter of `NormalizeDict`: `key.Elem()` if the key has
interface kind, then keep it only if the (unwrapped) kind is string. -/
def unwrapKey : MKey → Option String
  | MKey.plain (RawKey.str s) => some s
  | MKey.boxed (RawKey.str s) => some s
  | _ => none

/-- `reflect.ValueOf(v).Kind() == reflect.Map`. -/
def isMapShaped : Value → Bool
  | Value.vdict _ => true
  | Value.vmap _ => true
  | _ => false

mutual
/-- Embedding of Go `NormalizeDict`: returns `none` (Go nil) when the
input is not map-shaped, otherwise rebuilds a fresh canonical dict,
keeping only string keys and recursively normalizing map-shaped values. -/
def NormalizeDict : Value → Option Entries
  | Value.vdict es => some (normStrEntries es Entries.enil)
  | Value.vmap ms => some (normMEntries ms Entries.enil)
  | _ => none

/-- The normalization loop over a canonical map's entries (keys already
have string kind, so every key survives).  The stored value follows the
source: `newVal := NormalizeDict(cv); if newVal == nil { cv } else
{ newVal }`. -/
def normStrEntries : Entries → Entries → Entries
  | Entries.enil, acc => acc
  | Entries.econs k v rest, acc =>
    match NormalizeDict v with
    | none => normStrEntries rest (dset acc k v)
    | some nd => normStrEntries rest (dset acc k (Value.vdict nd))

/-- The normalization loop over a foreign map's entries: a key that does
not unwrap to a string is skipped (`continue`). -/
def normMEntries : MEntries → Entries → Entries
  | MEntries.mnil, acc => acc
  | MEntries.mcons k v rest, acc =>
    match unwrapKey k with
    | none => normMEntries rest acc
    | some s =>
      match NormalizeDict v with
      | none => normMEntries rest (dset acc s v)
      | some nd => normMEntries rest (dset acc s (Value.vdict nd))
end

/-- The value actually stored for one entry by the normalization loop:
the original value when it is not map-shaped, else its normalization. -/
def renorm (v : Value) : Value :=
  match NormalizeDict v with
  | none => v
  | some nd => Value.vdict nd

/-- Embedding of Go `DictChild`: nil when the key is absent or its value
is nil; the value itself when it is already a `map[string]interface{}`
(type assertion succeeds); otherwise the result of normalizing it. -/
def DictChild (dict : GoMap) (key : String) : GoMap :=
  match dlookup dict key with
  | none => none
  | some Value.vnil => none
  | some (Value.vdict es) => some es
  | some v => NormalizeDict v

/-- `strings.Join(segs, ".")`. -/
def joinPath (segs : List String) : String :=
  String.intercalate "." segs

/-- Go slice expression `xs[:hi]`: fails (run-time panic) unless
`0 <= hi <= len(xs)`. -/
def goSliceTo (xs : List String) (hi : Int) : Option (List String) :=
  if 0 ≤ hi ∧ hi ≤ xs.length then some (xs.take hi.toNat) else none

/-- Go index expression `xs[i]`: fails (run-time panic) unless
`0 <= i < len(xs)`. -/
def goIndex (xs : List String) (i : Int) : Option String :=
  if 0 ≤ i ∧ i < xs.length then xs.get? i.toNat else none

/-- Outcome of a Go function returning `(α, error)`: a value, an error,
or a run-time panic (out-of-bounds slice or index). -/
inductive GoResult (α : Type) where
  | ok (v : α)
  | err (e : String)
  | crash (m : String)

/-- Whether a `GoResult` is a run-time panic. -/
def GoResult.isCrash {α : Type} : GoResult α → Bool
  | GoResult.crash _ => true
  | _ => false

/-- The loop of `DictValue` over the intermediate segments
`inter = path[:len(path)-1]`, carrying the absolute index `i` of the
current segment in `path` for the error message `path[:i+1]`. -/
def dvLoop (path : List String) (dict : GoMap) (i : Nat) :
    List String → Except String GoMap
  | [] => Except.ok dict
  | seg :: rest =>
    match DictChild dict seg with
    | none => Except.error ("cannot find: " ++ joinPath (path.take (i + 1)))
    | some d => dvLoop path (some d) (i + 1) rest

/-- Embedding of Go `DictValue`: walk `DictChild` over all but the last
segment, then a raw map read of the last segment.  The slice and index
expressions are embedded bounds-checked, so the empty-path panic of the
Go code surfaces as `GoResult.crash`. -/
def DictValue (dict : GoMap) (path : List String) : GoResult Value :=
  match goSliceTo path ((path.length : Int) - 1) with
  | none => GoResult.crash "slice bounds out of range"
  | some inter =>
    match dvLoop path dict 0 inter with
    | Except.error e => GoResult.err e
    | Except.ok d =>
      match goIndex path ((path.length : Int) - 1) with
      | none => GoResult.crash "index out of range"
      | some last =>
        match dlookup d last with
        | none => GoResult.err ("cannot find: " ++ joinPath path)
        | some v => GoResult.ok v

/-- Embedding of Go `DictFlag`: delegate to `DictValue`, propagate its
error, then require a boolean leaf. -/
def DictFlag (dict : GoMap) (path : List String) : GoResult Bool :=
  match DictValue dict path with
  | GoResult.crash m => GoResult.crash m
  | GoResult.err e => GoResult.err e
  | GoResult.ok v =>
    match v with
    | Value.vbool b => GoResult.ok b
    | _ => GoResult.err (joinPath path ++ " is not a boolean type")

/-- Embedding of Go `OptionString`: the string value of a present,
non-nil, string-typed option; otherwise the empty string. -/
def OptionString (opts : GoMap) (optionName : String) : String :=
  match dlookup opts optionName with
  | some (Value.vstring s) => s
  | _ => ""

/-- Two's-complement wrap of an integer into the int64 range, as Go's
conversion to `int64` does for out-of-range unsigned operands. -/
def wrap64 (z : Int) : Int :=
  (z + 2 ^ 63) % 2 ^ 64 - 2 ^ 63

/-- Go `int64(f)` for a float value `f`: truncation toward zero. -/
def ratTrunc (q : Rat) : Int :=
  Int.tdiv q.num (q.den : Int)

/-- Embedding of Go `OptionInt64`: the type switch of the source handles
exactly the cases `int`, `int32`, `float64`, `uint`, `uint32`, `uint64`;
every other dynamic type (and absence or nil) yields 0. -/
def OptionInt64 (opts : GoMap) (optionName : String) : Int :=
  match dlookup opts optionName with
  | some v =>
    match v with
    | Value.vnil => 0
    | Value.vint i => i
    | Value.vint32 i => i
    | Value.vfloat64 q => ratTrunc q
    | Value.vuint n => wrap64 (n : Int)
    | Value.vuint32 n => (n : Int)
    | Value.vuint64 n => wrap64 (n : Int)
    | _ => 0
  | none => 0

/-- Embedding of Go `OptionFlag`: the boolean value of a present,
non-nil, boolean-typed option; otherwise false. -/
def OptionFlag (opts : GoMap) (optionName : String) : Bool :=
  match dlookup opts optionName with
  | some (Value.vbool b) => b
  | _ => false

/-- Embedding of Go `SetOption`: allocate an empty dict when given nil,
then assign `dict[name] = value` and return the dict. -/
def SetOption (dict : GoMap) (name : String) (value : Value) : Entries :=
  match dict with
  | none => dset Entries.enil name value
  | some d => dset d name value

/-- Iterated `DictChild` over a list of segments (the state of the
`DictValue` loop after consuming those segments). -/
def childIter (dict : GoMap) : List String → GoMap
  | [] => dict
  | seg :: rest => childIter (DictChild dict seg) rest

/-- The last segment of a path (`""` for the empty path, which `DictValue`
never reaches under its nonempty-path precondition). -/
def lastSeg : List String → String
  | [] => ""
  | [a] => a
  | _ :: b :: rest => lastSeg (b :: rest)

/-- Whether some key of a foreign map unwraps to the string `s`. -/
def mkeyMem (s : String) : MEntries → Bool
  | MEntries.mnil => false
  | MEntries.mcons k _ rest =>
    match unwrapKey k with
    | some t => if t = s then true else mkeyMem s rest
    | none => mkeyMem s rest

/-- Whether a map-shaped value has (after key unwrapping) the string key
`s`; false for non-map values. -/
def strKeyMem (s : String) : Value → Bool
  | Value.vdict es => keyMem s es
  | Value.vmap ms => mkeyMem s ms
  | _ => false

mutual
/-- A value as stored by the normalization loop: either not map-shaped
(stored unchanged), or a canonical dict that is itself in normal form. -/
inductive IsNormVal : Value → Prop where
  | scalar (v : Value) : NormalizeDict v = none → IsNormVal v
  | dict (es : Entries) : IsNormEntries es → IsNormVal (Value.vdict es)

/-- An association list as produced by the normalization loop: keys are
pairwise distinct and every stored value is in normal form. -/
inductive IsNormEntries : Entries → Prop where
  | nil : IsNormEntries Entries.enil
  | cons (k : String) (v : Value) (rest : Entries) :
      IsNormVal v → IsNormEntries rest → keyMem k rest = false →
      IsNormEntries (Entries.econs k v rest)
end

/-- No key occurs in both association lists. -/
def keysDisjoint (a b : Entries) : Prop :=
  ∀ s : String, keyMem s a = true → keyMem s b = false

/-- `{"call_timeout": true}`. -/
def featTrue : Entries := Entries.econs "call_timeout" (Value.vbool true) Entries.enil

/-- `{"features": {"call_timeout": true}}`. -/
def calleeTrue : Entries := Entries.econs "features" (Value.vdict featTrue) Entries.enil

/-- `{"callee": {"features": {"call_timeout": true}}}`. -/
def rolesTrue : Entries := Entries.econs "callee" (Value.vdict calleeTrue) Entries.enil

/-- `{"roles": {"callee": {"features": {"call_timeout": true}}}}`. -/
def topTrue : Entries := Entries.econs "roles" (Value.vdict rolesTrue) Entries.enil

/-- `{"call_timeout": "yes"}` — boolean feature stored as a string. -/
def featYes : Entries := Entries.econs "call_timeout" (Value.vstring "yes") Entries.enil

/-- `{"features": {"call_timeout": "yes"}}`. -/
def calleeYes : Entries := Entries.econs "features" (Value.vdict featYes) Entries.enil

/-- `{"callee": {"features": {"call_timeout": "yes"}}}`. -/
def rolesYes : Entries := Entries.econs "callee" (Value.vdict calleeYes) Entries.enil

/-- `{"roles": {"callee": {"features": {"call_timeout": "yes"}}}}`. -/
def topYes : Entries := Entries.econs "roles" (Value.vdict rolesYes) Entries.enil

/-- `{"a": nil}` — a key present with a nil value. -/
def nilLeaf : Entries := Entries.econs "a" Value.vnil Entries.enil

/-- A foreign map `{boxed "b": 1, nonStringKey: 2}`. -/
def foreignM : MEntries :=
  MEntries.mcons (MKey.boxed (RawKey.str "b")) (Value.vint 1)
    (MEntries.mcons (MKey.plain RawKey.other) (Value.vint 2) MEntries.mnil)

/-- `{"a": foreignM}` — a canonical dict holding a foreign nested map. -/
def mixedE : Entries := Entries.econs "a" (Value.vmap foreignM) Entries.enil

/-- The normalization of `mixedE`: `{"a": {"b": 1}}`. -/
def mixedN : Entries :=
  Entries.econs "a" (Value.vdict (Entries.econs "b" (Value.vint 1) Entries.enil)) Entries.enil

/-- `{"x": "s"}`. -/
def strLeaf : Entries := Entries.econs "x" (Value.vstring "s") Entries.enil

/-- `{"timeout": int64(5)}` — the option value has dynamic type `int64`. -/
def int64Opt : Entries := Entries.econs "timeout" (Value.vint64 5) Entries.enil

/-! ### Association-list lemmas -/

/-- List-style induction for `Entries` (no recursion into nested values),
usable where the mutual recursor is inconvenient. -/
@[induction_eliminator]
theorem entriesInduction {motive : Entries → Prop}
    (enil : motive Entries.enil)
    (econs : ∀ (k : String) (v : Value) (rest : Entries),
      motive rest → motive (Entries.econs k v rest)) :
    ∀ es, motive es
  | Entries.enil => enil
  | Entries.econs k v rest =>
    econs k v rest (entriesInduction enil econs rest)

/-- List-style induction for `MEntries`. -/
@[induction_eliminator]
theorem MentriesInduction {motive : MEntries → Prop}
    (mnil : motive MEntries.mnil)
    (mcons : ∀ (k : MKey) (v : Value) (rest : MEntries),
      motive rest → motive (MEntries.mcons k v rest)) :
    ∀ ms, motive ms
  | MEntries.mnil => mnil
  | MEntries.mcons k v rest =>
    mcons k v rest (MentriesInduction mnil mcons rest)

theorem keyMem_dset (d : Entries) (s k : String) (v : Value) :
    keyMem s (dset d k v) = if k = s then true else keyMem s d := by
  induction d with
  | enil => simp [dset, keyMem]
  | econs k' v' rest ih =>
    by_cases hk : k' = k
    · subst hk
      simp only [dset, if_pos rfl, keyMem]
      by_cases hs : k' = s <;> simp [hs]
    · simp only [dset, if_neg hk, keyMem, ih]
      by_cases hs : k' = s
      · subst hs
        have hks : ¬ k = k' := fun h => hk h.symm
        simp [hks]
      · simp [hs]

theorem elookup_dset (d : Entries) (k key : String) (v : Value) :
    elookup (dset d k v) key = if k = key then some v else elookup d key := by
  induction d with
  | enil => simp [dset, elookup]
  | econs k' v' rest ih =>
    by_cases hk : k' = k
    · subst hk
      simp only [dset, if_pos rfl, elookup]
      by_cases hs : k' = key <;> simp [hs]
    · simp only [dset, if_neg hk, elookup, ih]
      by_cases hs : k' = key
      · subst hs
        have hks : ¬ k = k' := fun h => hk h.symm
        simp [hks]
      · simp [hs]

theorem keyMem_eappend (s : String) (a b : Entries) :
    keyMem s (eappend a b) = (keyMem s a || keyMem s b) := by
  induction a with
  | enil => simp [eappend, keyMem]
  | econs k v rest ih =>
    simp only [eappend, keyMem, ih]
    by_cases hs : k = s <;> simp [hs]

theorem eappend_enil (a : Entries) : eappend a Entries.enil = a := by
  induction a with
  | enil => rfl
  | econs k v rest ih => simp [eappend, ih]

theorem eappend_assoc (a b c : Entries) :
    eappend (eappend a b) c = eappend a (eappend b c) := by
  induction a with
  | enil => rfl
  | econs k v rest ih => simp [eappend, ih]

theorem dset_eq_eappend (d : Entries) (k : String) (v : Value)
    (h : keyMem k d = false) :
    dset d k v = eappend d (Entries.econs k v Entries.enil) := by
  induction d with
  | enil => rfl
  | econs k' v' rest ih =>
    simp only [keyMem] at h
    by_cases hk : k' = k
    · simp [hk] at h
    · rw [if_neg hk] at h
      simp only [dset, if_neg hk, eappend]
      rw [ih h]

/-! ### Normalization shape and normal-form lemmas -/

theorem normalize_some_shape (v : Value) (nd : Entries)
    (h : NormalizeDict v = some nd) :
    (∃ es0, v = Value.vdict es0 ∧ nd = normStrEntries es0 Entries.enil) ∨
    (∃ ms0, v = Value.vmap ms0 ∧ nd = normMEntries ms0 Entries.enil) := by
  cases v
  case vdict es0 => exact Or.inl ⟨es0, rfl, (Option.some.inj h).symm⟩
  case vmap ms0 => exact Or.inr ⟨ms0, rfl, (Option.some.inj h).symm⟩
  all_goals exact nomatch h

theorem normStr_cons_renorm (k : String) (v : Value) (rest acc : Entries) :
    normStrEntries (Entries.econs k v rest) acc =
      normStrEntries rest (dset acc k (renorm v)) := by
  cases v <;> rfl

theorem normM_cons_skip (k : MKey) (v : Value) (rest : MEntries) (acc : Entries)
    (h : unwrapKey k = none) :
    normMEntries (MEntries.mcons k v rest) acc = normMEntries rest acc := by
  cases k with
  | plain rk => cases rk with
    | str t => exact nomatch h
    | other => cases v <;> rfl
  | boxed rk => cases rk with
    | str t => exact nomatch h
    | other => cases v <;> rfl

theorem normM_cons_keep (k : MKey) (s : String) (v : Value) (rest : MEntries)
    (acc : Entries) (h : unwrapKey k = some s) :
    normMEntries (MEntries.mcons k v rest) acc =
      normMEntries rest (dset acc s (renorm v)) := by
  cases k with
  | plain rk => cases rk with
    | str t =>
      cases Option.some.inj h
      cases v <;> rfl
    | other => exact nomatch h
  | boxed rk => cases rk with
    | str t =>
      cases Option.some.inj h
      cases v <;> rfl
    | other => exact nomatch h

theorem isNormEntries_dset (d : Entries) (k : String) (v : Value)
    (hd : IsNormEntries d) (hv : IsNormVal v) : IsNormEntries (dset d k v) := by
  induction d with
  | enil => exact IsNormEntries.cons k v Entries.enil hv IsNormEntries.nil rfl
  | econs k' v' rest ih =>
    cases hd with
    | cons _ _ _ hv' hrest hk' =>
      by_cases hk : k' = k
      · subst hk
        simp only [dset, if_pos rfl]
        exact IsNormEntries.cons k' v rest hv hrest hk'
      · simp only [dset, if_neg hk]
        refine IsNormEntries.cons k' v' (dset rest k v) hv' (ih hrest) ?_
        rw [keyMem_dset]
        rw [if_neg (fun h => hk h.symm)]
        exact hk'

mutual
theorem normVal_isNorm : ∀ (v : Value) (nd : Entries),
    NormalizeDict v = some nd → IsNormEntries nd
  | Value.vdict es0, _, h =>
    (Option.some.inj h) ▸ normStr_isNorm es0 Entries.enil IsNormEntries.nil
  | Value.vmap ms0, _, h =>
    (Option.some.inj h) ▸ normM_isNorm ms0 Entries.enil IsNormEntries.nil
  | Value.vnil, _, h => nomatch h
  | Value.vbool _, _, h => nomatch h
  | Value.vint _, _, h => nomatch h
  | Value.vint8 _, _, h => nomatch h
  | Value.vint16 _, _, h => nomatch h
  | Value.vint32 _, _, h => nomatch h
  | Value.vint64 _, _, h => nomatch h
  | Value.vuint _, _, h => nomatch h
  | Value.vuint8 _, _, h => nomatch h
  | Value.vuint16 _, _, h => nomatch h
  | Value.vuint32 _, _, h => nomatch h
  | Value.vuint64 _, _, h => nomatch h
  | Value.vfloat32 _, _, h => nomatch h
  | Value.vfloat64 _, _, h => nomatch h
  | Value.vstring _, _, h => nomatch h
  | Value.vother, _, h => nomatch h

theorem normStr_isNorm : ∀ (es acc : Entries),
    IsNormEntries acc → IsNormEntries (normStrEntries es acc)
  | Entries.enil, _, hacc => hacc
  | Entries.econs k v rest, acc, hacc => by
    rw [normStr_cons_renorm]
    have hstep : IsNormVal (renorm v) := by
      cases hnd : NormalizeDict v with
      | none =>
        have hr : renorm v = v := by simp only [renorm, hnd]
        rw [hr]
        exact IsNormVal.scalar v hnd
      | some nd =>
        have hr : renorm v = Value.vdict nd := by simp only [renorm, hnd]
        rw [hr]
        exact IsNormVal.dict nd (normVal_isNorm v nd hnd)
    exact normStr_isNorm rest (dset acc k (renorm v))
      (isNormEntries_dset acc k (renorm v) hacc hstep)

theorem normM_isNorm : ∀ (ms : MEntries) (acc : Entries),
    IsNormEntries acc → IsNormEntries (normMEntries ms acc)
  | MEntries.mnil, _, hacc => hacc
  | MEntries.mcons k v rest, acc, hacc => by
    cases hk : unwrapKey k with
    | none =>
      rw [normM_cons_skip k v rest acc hk]
      exact normM_isNorm rest acc hacc
    | some s =>
      rw [normM_cons_keep k s v rest acc hk]
      have hstep : IsNormVal (renorm v) := by
        cases hnd : NormalizeDict v with
        | none =>
          have hr : renorm v = v := by simp only [renorm, hnd]
          rw [hr]
          exact IsNormVal.scalar v hnd
        | some nd =>
          have hr : renorm v = Value.vdict nd := by simp only [renorm, hnd]
          rw [hr]
          exact IsNormVal.dict nd (normVal_isNorm v nd hnd)
      exact normM_isNorm rest (dset acc s (renorm v))
        (isNormEntries_dset acc s (renorm v) hacc hstep)
end

mutual
theorem renorm_fix : ∀ (v : Value), IsNormVal v → renorm v = v
  | v, IsNormVal.scalar _ h => by simp only [renorm, h]
  | _, IsNormVal.dict es hes => by
    have h1 : normStrEntries es Entries.enil = es := by
      rw [normStr_fix es Entries.enil hes (fun s hs => nomatch hs)]
      rfl
    calc renorm (Value.vdict es) = Value.vdict (normStrEntries es Entries.enil) := rfl
      _ = Value.vdict es := by rw [h1]

theorem normStr_fix : ∀ (es acc : Entries),
    IsNormEntries es → keysDisjoint acc es → normStrEntries es acc = eappend acc es
  | Entries.enil, acc, _, _ => (eappend_enil acc).symm
  | Entries.econs k v rest, acc, hes, hdisj => by
    cases hes with
    | cons _ _ _ hv hrest hk =>
      rw [normStr_cons_renorm, renorm_fix v hv]
      have hkacc : keyMem k acc = false := by
        cases hc : keyMem k acc with
        | false => rfl
        | true =>
          have := hdisj k hc
          simp [keyMem] at this
      rw [dset_eq_eappend acc k v hkacc]
      have hdisj' : keysDisjoint (eappend acc (Entries.econs k v Entries.enil)) rest := by
        intro s hs
        rw [keyMem_eappend] at hs
        rcases Bool.or_eq_true_iff.mp hs with hs1 | hs2
        · have := hdisj s hs1
          simp only [keyMem] at this
          by_cases hks : k = s
          · simp [hks] at this
          · rwa [if_neg hks] at this
        · simp only [keyMem] at hs2
          by_cases hks : k = s
          · exact hks ▸ hk
          · simp [hks] at hs2
      rw [normStr_fix rest (eappend acc (Entries.econs k v Entries.enil)) hrest hdisj']
      rw [eappend_assoc]
      rfl
end

/-! ### Path-resolver lemmas -/

theorem childIter_nil_none (segs : List String) : childIter none segs = none := by
  induction segs with
  | nil => rfl
  | cons s rest ih => exact ih

theorem take_length_pred (l : List String) : l.take (l.length - 1) = l.dropLast := by
  induction l with
  | nil => rfl
  | cons a rest ih =>
    cases rest with
    | nil => rfl
    | cons b t =>
      show a :: (b :: t).take ((b :: t).length - 1) = (a :: b :: t).dropLast
      rw [ih]
      rfl

theorem get?_length_pred (l : List String) (h : l ≠ []) :
    l.get? (l.length - 1) = some (lastSeg l) := by
  induction l with
  | nil => exact absurd rfl h
  | cons a rest ih =>
    cases rest with
    | nil => rfl
    | cons b t =>
      show (b :: t).get? ((b :: t).length - 1) = some (lastSeg (a :: b :: t))
      exact ih (by simp)

theorem dropLast_take (l : List String) (i : Nat) (h : i + 1 < l.length) :
    l.dropLast.take i = l.take i := by
  induction l generalizing i with
  | nil => simp at h
  | cons a rest ih =>
    cases rest with
    | nil => simp at h
    | cons b t =>
      cases i with
      | zero => rfl
      | succ i' =>
        show a :: (b :: t).dropLast.take i' = a :: (b :: t).take i'
        rw [ih i' (by simpa using Nat.lt_of_succ_lt_succ (by simpa using h))]

theorem dropLast_get? (l : List String) (i : Nat) (h : i + 1 < l.length) :
    l.dropLast.get? i = l.get? i := by
  induction l generalizing i with
  | nil => simp at h
  | cons a rest ih =>
    cases rest with
    | nil => simp at h
    | cons b t =>
      cases i with
      | zero => rfl
      | succ i' =>
        show (b :: t).dropLast.get? i' = (b :: t).get? i'
        exact ih i' (by simpa using Nat.lt_of_succ_lt_succ (by simpa using h))

theorem goSliceTo_pred (path : List String) (h : path ≠ []) :
    goSliceTo path ((path.length : Int) - 1) = some path.dropLast := by
  have hlen : 1 ≤ path.length := by
    cases path with
    | nil => exact absurd rfl h
    | cons a t => exact Nat.succ_le_succ (Nat.zero_le _)
  unfold goSliceTo
  rw [if_pos (by constructor <;> omega)]
  have ht : ((path.length : Int) - 1).toNat = path.length - 1 := by omega
  rw [ht, take_length_pred]

theorem goIndex_pred (path : List String) (h : path ≠ []) :
    goIndex path ((path.length : Int) - 1) = some (lastSeg path) := by
  have hlen : 1 ≤ path.length := by
    cases path with
    | nil => exact absurd rfl h
    | cons a t => exact Nat.succ_le_succ (Nat.zero_le _)
  unfold goIndex
  rw [if_pos (by constructor <;> omega)]
  have ht : ((path.length : Int) - 1).toNat = path.length - 1 := by omega
  rw [ht, get?_length_pred path h]

theorem dvLoop_ok (inter : List String) : ∀ (path : List String) (i : Nat)
    (dict : GoMap) (d : Entries), childIter dict inter = some d →
    dvLoop path dict i inter = Except.ok (some d) := by
  induction inter with
  | nil =>
    intro path i dict d h
    have hd : dict = some d := h
    rw [show dvLoop path dict i [] = Except.ok dict from rfl, hd]
  | cons seg rest ih =>
    intro path i dict d h
    cases hc : DictChild dict seg with
    | none =>
      have : childIter none rest = some d := by
        rw [show childIter dict (seg :: rest) = childIter (DictChild dict seg) rest from rfl,
          hc] at h
        exact h
      rw [childIter_nil_none] at this
      exact nomatch this
    | some d1 =>
      have h' : childIter (some d1) rest = some d := by
        rw [show childIter dict (seg :: rest) = childIter (DictChild dict seg) rest from rfl,
          hc] at h
        exact h
      simp only [dvLoop, hc]
      exact ih path (i + 1) (some d1) d h'

theorem dvLoop_err (inter : List String) : ∀ (j : Nat) (path : List String) (i : Nat)
    (dict : GoMap) (d : Entries) (seg : String),
    childIter dict (inter.take j) = some d →
    inter.get? j = some seg →
    DictChild (some d) seg = none →
    dvLoop path dict i inter =
      Except.error ("cannot find: " ++ joinPath (path.take (i + j + 1))) := by
  induction inter with
  | nil =>
    intro j path i dict d seg h1 h2 h3
    exact nomatch h2
  | cons s rest ih =>
    intro j path i dict d seg h1 h2 h3
    cases j with
    | zero =>
      have hd : dict = some d := h1
      cases Option.some.inj h2
      simp only [dvLoop, hd, h3]
    | succ j' =>
      cases hc : DictChild dict s with
      | none =>
        have : childIter none (rest.take j') = some d := by
          rw [show childIter dict ((s :: rest).take (j' + 1)) =
            childIter (DictChild dict s) (rest.take j') from rfl, hc] at h1
          exact h1
        rw [childIter_nil_none] at this
        exact nomatch this
      | some d1 =>
        have h1' : childIter (some d1) (rest.take j') = some d := by
          rw [show childIter dict ((s :: rest).take (j' + 1)) =
            childIter (DictChild dict s) (rest.take j') from rfl, hc] at h1
          exact h1
        have h2' : rest.get? j' = some seg := h2
        simp only [dvLoop, hc]
        have hrec := ih j' path (i + 1) (some d1) d seg h1' h2' h3
        have harith : i + 1 + j' + 1 = i + (j' + 1) + 1 := by omega
        rw [hrec, harith]

/-! ### Claim theorems for the path resolver -/

/-- C9: under the precondition that the path is nonempty, the slice
`path[:len(path)-1]` and the index `path[len(path)-1]` taken by
`DictValue` are in bounds, and `DictValue` never reaches the out-of-bounds
(`crash`) branch of the embedding: it is total, returning a value or an
error. -/
theorem dictValue_total (dict : GoMap) (path : List String) (h : path ≠ []) :
    goSliceTo path ((path.length : Int) - 1) = some path.dropLast ∧
    goIndex path ((path.length : Int) - 1) = some (lastSeg path) ∧
    (DictValue dict path).isCrash = false := by
  refine ⟨goSliceTo_pred path h, goIndex_pred path h, ?_⟩
  cases hl : dvLoop path dict 0 path.dropLast with
  | error e =>
    simp only [DictValue, goSliceTo_pred path h, hl]
    rfl
  | ok d =>
    simp only [DictValue, goSliceTo_pred path h, hl, goIndex_pred path h]
    cases hv : dlookup d (lastSeg path) <;> rfl

/-- C9 witness: a concrete nonempty path neither crashes nor leaves the
ok/error space. -/
theorem dictValue_total_witness :
    (DictValue (some topTrue) ["roles", "callee"]).isCrash = false :=
  (dictValue_total (some topTrue) ["roles", "callee"] (by simp)).2.2

/-- C3: when `DictValue` fails while resolving an intermediate segment
(the first `i` segments resolve via iterated `DictChild` and segment `i`
does not), the error names exactly the prefix of segments up to and
including the failing one, joined by "."; when all intermediate segments
resolve but the final segment is absent, the error names the full path. -/
theorem dictValue_err_naming (dict : GoMap) (path : List String)
    (hne : path ≠ []) :
    (∀ (i : Nat) (d : Entries) (hi : i + 1 < path.length),
      childIter dict (path.take i) = some d →
      DictChild (some d) (path.get ⟨i, Nat.lt_of_succ_lt hi⟩) = none →
      DictValue dict path =
        GoResult.err ("cannot find: " ++ joinPath (path.take (i + 1)))) ∧
    (∀ d : Entries,
      childIter dict path.dropLast = some d →
      elookup d (lastSeg path) = none →
      DictValue dict path = GoResult.err ("cannot find: " ++ joinPath path)) := by
  constructor
  · intro i d hi h1 h2
    have htake : path.dropLast.take i = path.take i := dropLast_take path i hi
    have hget : path.dropLast.get? i = some (path.get ⟨i, Nat.lt_of_succ_lt hi⟩) := by
      rw [dropLast_get? path i hi]
      exact List.get?_eq_get (Nat.lt_of_succ_lt hi)
    have hloop := dvLoop_err path.dropLast i path 0 dict d
      (path.get ⟨i, Nat.lt_of_succ_lt hi⟩) (htake ▸ h1) hget h2
    have harith : 0 + i + 1 = i + 1 := by omega
    rw [harith] at hloop
    simp only [DictValue, goSliceTo_pred path hne, hloop]
  · intro d h1 h2
    have hloop := dvLoop_ok path.dropLast path 0 dict d h1
    simp only [DictValue, goSliceTo_pred path hne, hloop, goIndex_pred path hne,
      dlookup, h2]

/-- C3 witness: a failing middle segment names the prefix through it. -/
theorem dictValue_err_naming_witness :
    DictValue (some topTrue) ["roles", "publisher", "features"] =
      GoResult.err "cannot find: roles.publisher" :=
  (dictValue_err_naming (some topTrue) ["roles", "publisher", "features"]
    (by simp)).1 1 rolesTrue (by decide) rfl rfl

/-- C4: when the intermediate segments all resolve and the final segment
is present as a key, `DictValue` returns the raw stored value with no
error — even when that stored value is nil. -/
theorem dictValue_raw_leaf (dict : GoMap) (path : List String) (hne : path ≠ [])
    (d : Entries) (v : Value)
    (h1 : childIter dict path.dropLast = some d)
    (h2 : elookup d (lastSeg path) = some v) :
    DictValue dict path = GoResult.ok v := by
  have hloop := dvLoop_ok path.dropLast path 0 dict d h1
  simp only [DictValue, goSliceTo_pred path hne, hloop, goIndex_pred path hne,
    dlookup, h2]

/-- C4 witness: a present-but-nil final leaf is returned, not an error. -/
theorem dictValue_raw_leaf_witness :
    DictValue (some nilLeaf) ["a"] = GoResult.ok Value.vnil :=
  dictValue_raw_leaf (some nilLeaf) ["a"] (by simp) nilLeaf Value.vnil rfl rfl

/-- C10: read operations treat a nil dict as empty: `DictChild` on nil
yields nil for every key, `DictValue` on nil yields a path-not-found
error (naming the first segment) for every nonempty path, and the three
option accessors return their type-appropriate zero values. -/
theorem nilDict_reads_default :
    (∀ key : String, DictChild none key = none) ∧
    (∀ path : List String, path ≠ [] →
      DictValue none path =
        GoResult.err ("cannot find: " ++ joinPath (path.take 1))) ∧
    (∀ name : String,
      OptionString none name = "" ∧ OptionInt64 none name = 0 ∧
        OptionFlag none name = false) := by
  refine ⟨fun key => rfl, ?_, fun name => ⟨rfl, rfl, rfl⟩⟩
  intro path hne
  cases path with
  | nil => exact absurd rfl hne
  | cons a rest =>
    cases rest with
    | nil => rfl
    | cons b t =>
      have e1 := goSliceTo_pred (a :: b :: t) (by simp)
      simp only [DictValue, e1]
      rfl

/-- C10 witness: a nil dict and a two-segment path produce the
path-not-found error naming the first segment. -/
theorem nilDict_reads_default_witness :
    DictValue none ["a", "b"] = GoResult.err "cannot find: a" :=
  nilDict_reads_default.2.1 ["a", "b"] (by simp)

/-! ### Normalizer claims -/

/-- C2: normalization is idempotent — normalizing the canonical dict
produced by `NormalizeDict` reproduces it unchanged (literal structural
equality, which is stronger than equality up to key order). -/
theorem normalizeDict_idempotent (v : Value) (es : Entries)
    (h : NormalizeDict v = some es) :
    NormalizeDict (Value.vdict es) = some es := by
  have hn : IsNormEntries es := normVal_isNorm v es h
  have h2 : normStrEntries es Entries.enil = es := by
    rw [normStr_fix es Entries.enil hn (fun s hs => nomatch hs)]
    rfl
  calc NormalizeDict (Value.vdict es)
      = some (normStrEntries es Entries.enil) := rfl
    _ = some es := by rw [h2]

/-- C2 witness: a dict holding a foreign nested map normalizes to
`mixedN`, and normalizing `mixedN` again leaves it unchanged. -/
theorem normalizeDict_idempotent_witness :
    NormalizeDict (Value.vdict mixedE) = some mixedN ∧
    NormalizeDict (Value.vdict mixedN) = some mixedN :=
  ⟨rfl, normalizeDict_idempotent (Value.vdict mixedE) mixedN rfl⟩

theorem keyMem_normStr (es : Entries) : ∀ (acc : Entries) (s : String),
    keyMem s (normStrEntries es acc) = (keyMem s acc || keyMem s es) := by
  induction es with
  | enil => intro acc s; simp [normStrEntries, keyMem]
  | econs k v rest ih =>
    intro acc s
    rw [normStr_cons_renorm, ih, keyMem_dset]
    simp only [keyMem]
    by_cases hs : k = s <;> simp [hs]

theorem keyMem_normM (ms : MEntries) : ∀ (acc : Entries) (s : String),
    keyMem s (normMEntries ms acc) = (keyMem s acc || mkeyMem s ms) := by
  induction ms with
  | mnil => intro acc s; simp [normMEntries, mkeyMem]
  | mcons k v rest ih =>
    intro acc s
    cases hk : unwrapKey k with
    | none =>
      rw [normM_cons_skip k v rest acc hk, ih]
      simp [mkeyMem, hk]
    | some t =>
      rw [normM_cons_keep k t v rest acc hk, ih, keyMem_dset]
      simp only [mkeyMem, hk]
      by_cases hs : t = s <;> simp [hs]

/-- C5: `NormalizeDict` returns nil exactly for non-map-shaped input; a
map-shaped input yields a dict whose keys are exactly the (unwrapped)
string keys of the input, non-string keys being dropped; and the empty
canonical or foreign map yields the empty dict, not nil. -/
theorem normalizeDict_shape :
    (∀ v : Value, NormalizeDict v = none ↔ isMapShaped v = false) ∧
    (∀ (v : Value) (d : Entries) (s : String),
      NormalizeDict v = some d → keyMem s d = strKeyMem s v) ∧
    NormalizeDict (Value.vdict Entries.enil) = some Entries.enil ∧
    NormalizeDict (Value.vmap MEntries.mnil) = some Entries.enil := by
  refine ⟨?_, ?_, rfl, rfl⟩
  · intro v
    cases v <;> simp [NormalizeDict, isMapShaped]
  · intro v d s h
    rcases normalize_some_shape v d h with ⟨es0, hv, hd⟩ | ⟨ms0, hv, hd⟩
    · subst hv
      rw [hd, keyMem_normStr]
      simp [strKeyMem, keyMem]
    · subst hv
      rw [hd, keyMem_normM]
      simp [strKeyMem, keyMem]

/-- C5 witness: the foreign map `foreignM` normalizes to a dict holding
exactly its unwrapped string key. -/
theorem normalizeDict_shape_witness :
    keyMem "b" (Entries.econs "b" (Value.vint 1) Entries.enil) =
      strKeyMem "b" (Value.vmap foreignM) :=
  normalizeDict_shape.2.1 (Value.vmap foreignM)
    (Entries.econs "b" (Value.vint 1) Entries.enil) "b" rfl

/-! ### Child resolver, typed accessors, mutator -/

/-- C6: `DictChild` returns nil exactly when the key is absent, its value
is nil, or its value is neither a canonical dict nor convertible by
normalization; an already-canonical child is returned directly, and
otherwise the child is the normalization of the stored value. -/
theorem dictChild_spec (dict : GoMap) (key : String) :
    (DictChild dict key = none ↔
      dlookup dict key = none ∨ dlookup dict key = some Value.vnil ∨
      (∃ v, dlookup dict key = some v ∧ (∀ es, v ≠ Value.vdict es) ∧
        NormalizeDict v = none)) ∧
    (∀ es, dlookup dict key = some (Value.vdict es) →
      DictChild dict key = some es) ∧
    (∀ v, dlookup dict key = some v → v ≠ Value.vnil →
      (∀ es, v ≠ Value.vdict es) → DictChild dict key = NormalizeDict v) := by
  refine ⟨⟨?_, ?_⟩, ?_, ?_⟩
  · intro h
    cases hl : dlookup dict key with
    | none => exact Or.inl rfl
    | some v =>
      cases v
      case vnil => exact Or.inr (Or.inl rfl)
      case vdict es => simp [DictChild, hl] at h
      case vmap ms => simp [DictChild, hl, NormalizeDict] at h
      all_goals exact Or.inr (Or.inr ⟨_, rfl, fun es hes => Value.noConfusion hes, rfl⟩)
  · intro h
    rcases h with h | h | ⟨v, hv, hnd, hnn⟩
    · simp [DictChild, h]
    · simp [DictChild, h]
    · cases v
      case vnil => simp [DictChild, hv]
      case vdict es => exact absurd rfl (hnd es)
      case vmap ms => simp [NormalizeDict] at hnn
      all_goals simp [DictChild, hv, NormalizeDict]
  · intro es h
    simp [DictChild, h]
  · intro v h hnn hnd
    cases v
    case vnil => exact absurd rfl hnn
    case vdict es => exact absurd rfl (hnd es)
    all_goals simp [DictChild, h]

/-- C6 witness: a string-valued child is neither nil-valued nor a dict,
so `DictChild` returns its (failed) normalization. -/
theorem dictChild_spec_witness :
    DictChild (some strLeaf) "x" = NormalizeDict (Value.vstring "s") :=
  (dictChild_spec (some strLeaf) "x").2.2 (Value.vstring "s") rfl
    (fun h => Value.noConfusion h) (fun _ h => Value.noConfusion h)

/-- C7: `DictFlag` propagates a `DictValue` error unchanged; a successful
lookup of a non-boolean leaf yields the wrong-type error naming the full
path; a boolean leaf is returned as-is. -/
theorem dictFlag_spec (dict : GoMap) (path : List String) (_hne : path ≠ []) :
    (∀ e, DictValue dict path = GoResult.err e →
      DictFlag dict path = GoResult.err e) ∧
    (∀ v, DictValue dict path = GoResult.ok v → (∀ b, v ≠ Value.vbool b) →
      DictFlag dict path = GoResult.err (joinPath path ++ " is not a boolean type")) ∧
    (∀ b, DictValue dict path = GoResult.ok (Value.vbool b) →
      DictFlag dict path = GoResult.ok b) := by
  refine ⟨?_, ?_, ?_⟩
  · intro e h
    simp only [DictFlag, h]
  · intro v h hb
    simp only [DictFlag, h]
  · intro b h
    simp only [DictFlag, h]

/-- C7 witness: a string leaf under a boolean feature path produces the
wrong-type error naming the full path. -/
theorem dictFlag_spec_witness :
    DictFlag (some topYes) ["roles", "callee", "features", "call_timeout"] =
      GoResult.err "roles.callee.features.call_timeout is not a boolean type" :=
  (dictFlag_spec (some topYes) ["roles", "callee", "features", "call_timeout"]
    (by simp)).2.1 (Value.vstring "yes") rfl (fun b hb => Value.noConfusion hb)

/-- C8: `SetOption` on nil allocates a dict with exactly the single given
entry; on a non-nil dict it stores the binding in place, so a lookup of
the returned dict sees the new value at `name` and the old values
elsewhere. -/
theorem setOption_spec (name : String) (value : Value) :
    SetOption none name value = Entries.econs name value Entries.enil ∧
    (∀ (d : Entries) (k : String),
      elookup (SetOption (some d) name value) k =
        if name = k then some value else elookup d k) := by
  refine ⟨rfl, fun d k => ?_⟩
  simp only [SetOption]
  exact elookup_dset d name k value

/-- C1: contrary to the claim (and to the function's own doc comment,
which says it "returns the int64 value of the option"), the type switch
in `OptionInt64` omits the `int64` case itself (as well as `int8`,
`int16`, `uint8`, `uint16` and `float32`), so an option stored as
`int64(5)` yields 0, not 5. -/
theorem optionInt64_int64_yields_zero :
    OptionInt64 (some int64Opt) "timeout" = 0 := rfl

end Wamp


